import Mathlib

/-!
# Verification of the ChatGPT Turbo page-instrumentation engine

Shallow embedding of the runtime engine emitted by `generateContentScript`
(the content-script template): the listener throttle interceptor, the
viewport virtualizer, the DOM janitor, the lazy code-block renderer and the
memory-pressure monitor.  Times are naturals (milliseconds), DOM state is
explicit, and every scheduler is modelled as a step function over an
explicit event trace.
-/

/-! ## Listener throttle interceptor

Embedding of the `throttleHandlers` IIFE: `THROTTLE_EVENTS`, `THROTTLE_MS`,
the per-registration closure state (`lastRun`, `timeout`, `lastArgs`; the
captured `lastThis`/`lastArgs` pair is modelled as a single opaque argument
value of type `A`), and the `throttled` wrapper body.  The event loop is a
trace of timed events: wrapper invocations (`call`) and timer firings
(`fire`).  The clock strictly advances between consecutive event-loop
tasks, and a timer armed by `setTimeout(f, remaining)` fires at or after
its deadline; both facts are captured by `validFrom` below. -/

namespace Throttle

def THROTTLE_MS : Nat := 32

def THROTTLE_EVENTS : List String := ["input", "paste", "keydown", "keyup", "keypress"]

/-- Per-registration closure state of the `throttled` wrapper:
`lastRun = 0`, `timeout = null`, `lastArgs = null` initially.  A pending
`timeout` is recorded by its deadline `now + remaining = lastRun + THROTTLE_MS`. -/
structure TState (A : Type) where
  lastRun : Nat
  timeoutSched : Option Nat
  lastArgs : Option A
  deriving Repr, DecidableEq

def initThrottle (A : Type) : TState A := ⟨0, none, none⟩

/-- An event-loop task touching one registration: an invocation of the
wrapper at time `t` with argument record `a`, or the firing of the armed
timer at time `t`. -/
inductive ThrottleEv (A : Type) where
  | call (t : Nat) (a : A)
  | fire (t : Nat)
  deriving Repr, DecidableEq

def ThrottleEv.time {A : Type} : ThrottleEv A → Nat
  | .call t _ => t
  | .fire t => t

/-- One step of the `throttled` wrapper / its timer callback.  Returns the
new closure state and the callback execution it performs, if any.

`call`: the body records `lastArgs = args`, computes
`remaining = THROTTLE_MS - (now - lastRun)`; `remaining <= 0` (i.e.
`lastRun + THROTTLE_MS <= now`, the clock never running backwards) clears
any pending timer, sets `lastRun = now` and applies the listener now;
otherwise, if no timer is pending, one is armed for
`now + remaining = lastRun + THROTTLE_MS`.

`fire`: the timer callback sets `lastRun = performance.now()`, clears the
timer and applies the listener to the recorded `lastArgs`. -/
def throttleStep {A : Type} (s : TState A) : ThrottleEv A → TState A × Option (Nat × A)
  | .call t a =>
    if s.lastRun + THROTTLE_MS ≤ t then
      (⟨t, none, some a⟩, some (t, a))
    else
      match s.timeoutSched with
      | none => (⟨s.lastRun, some (s.lastRun + THROTTLE_MS), some a⟩, none)
      | some sch => (⟨s.lastRun, some sch, some a⟩, none)
  | .fire t => (⟨t, none, s.lastArgs⟩, s.lastArgs.map (fun a => (t, a)))

/-- Run a trace of events, accumulating the callback executions in order. -/
def throttleRun {A : Type} (s : TState A) : List (ThrottleEv A) → TState A × List (Nat × A)
  | [] => (s, [])
  | e :: rest =>
    let p := throttleStep s e
    let q := throttleRun p.1 rest
    (q.1, p.2.toList ++ q.2)

/-- Event-loop validity of a trace from state `s`, the previous task having
run at time `tprev`: timestamps strictly increase from task to task, and a
`fire` task can only run if a timer is pending and its deadline has been
reached. -/
def validFrom {A : Type} (tprev : Nat) (s : TState A) : List (ThrottleEv A) → Bool
  | [] => true
  | .call t a :: rest =>
    decide (tprev < t) && validFrom t (throttleStep s (.call t a)).1 rest
  | .fire t :: rest =>
    decide (tprev < t) && (s.timeoutSched.any (fun sch => decide (sch ≤ t))) &&
      validFrom t (throttleStep s (.fire t)).1 rest

/-- The executions produced by a trace started on a fresh registration. -/
def throttleExecs {A : Type} (evs : List (ThrottleEv A)) : List (Nat × A) :=
  (throttleRun (initThrottle A) evs).2

/-- The `(time, args)` pairs of the wrapper invocations of a trace. -/
def callEvents {A : Type} : List (ThrottleEv A) → List (Nat × A)
  | [] => []
  | .call t a :: rest => (t, a) :: callEvents rest
  | .fire _ :: rest => callEvents rest

/-- The most recent wrapper invocation `(time, args)` of a trace, given the
most recent one before it. -/
def lastCall {A : Type} (dflt : Nat × A) (evs : List (ThrottleEv A)) : Nat × A :=
  (callEvents evs).getLastD dflt

/-- The time of the last event of a trace, given the time of the previous
task. -/
def endT {A : Type} (dflt : Nat) (evs : List (ThrottleEv A)) : Nat :=
  (evs.map ThrottleEv.time).getLastD dflt

/-- Run-time invariant of one throttled registration, relating the closure
state `s` and the executions `outs` performed so far to the first
invocation time `t0`, the most recent invocation `c` and the time `tprev`
of the task that just ran.  Consecutive executions are at least
`THROTTLE_MS` apart (`count_chain`), a pending timer always has deadline
`lastRun + THROTTLE_MS` and was armed by an invocation after the execution
at `lastRun` (`sched`), the execution count obeys the
`⌈elapsed / window⌉ + 1` bound (`count_bound`), and whenever no timer is
pending the most recent execution used the most recent invocation's
arguments (`lww`). -/
structure Inv {A : Type} (t0 tprev : Nat) (c : Nat × A) (s : TState A)
    (outs : List (Nat × A)) : Prop where
  t0_pos : 0 < t0
  t0_le : t0 ≤ c.1
  c_le : c.1 ≤ tprev
  lastRun_le : s.lastRun ≤ tprev
  lastRun_nil : outs = [] → s.lastRun = 0
  count_chain : outs ≠ [] → t0 ≤ s.lastRun ∧
    outs.length ≤ (s.lastRun - t0) / THROTTLE_MS + 1
  sched : ∀ sch, s.timeoutSched = some sch →
    sch = s.lastRun + THROTTLE_MS ∧ s.lastRun + 1 ≤ c.1 ∧ s.lastArgs = some c.2
  count_bound : outs.length ≤ (c.1 - t0 + (THROTTLE_MS - 1)) / THROTTLE_MS + 1
  lww : s.timeoutSched = none → ∃ p, outs.getLast? = some p ∧ p.2 = c.2

end Throttle

/-! ## Interceptor registration (patched `EventTarget.prototype.addEventListener`)

The patched entry point wraps the listener exactly when the event type is
in `THROTTLE_EVENTS` and `typeof listener === 'function'`; in every other
case it forwards `(type, listener, options)` unchanged to
`originalAddEventListener`.  Listener reference identity is modelled by
constructors: the freshly created `throttled` closure of a wrapped
registration is a different reference from the caller's callback. -/

namespace Intercept

/-- A host-page listener argument: a function, or an object (e.g. a
`handleEvent` object); `typeof listener === 'function'` holds only for
`fn`. -/
inductive Listener where
  | fn (id : Nat)
  | obj (id : Nat)
  deriving Repr, DecidableEq

def Listener.isFn : Listener → Bool
  | .fn _ => true
  | .obj _ => false

/-- The listener reference actually handed to `originalAddEventListener`:
either the caller's own reference, or a freshly created `throttled` wrapper
closing over the original callback and its own throttle state. -/
inductive Registered where
  | asIs (l : Listener)
  | wrapped (l : Listener) (st : Throttle.TState Nat)
  deriving Repr, DecidableEq

/-- A registration record as the browser stores it. -/
structure Registration where
  type : String
  listener : Registered
  options : Nat
  deriving Repr, DecidableEq

/-- The unpatched `EventTarget.prototype.addEventListener`. -/
def originalAddEventListener (type : String) (l : Listener) (options : Nat) : Registration :=
  ⟨type, .asIs l, options⟩

/-- The patched `EventTarget.prototype.addEventListener`: for a designated
type and a function listener it registers a fresh `throttled` wrapper
(with its own zeroed closure state); otherwise it forwards unchanged. -/
def addEventListenerPatched (type : String) (l : Listener) (options : Nat) : Registration :=
  if Throttle.THROTTLE_EVENTS.contains type && l.isFn then
    ⟨type, .wrapped l (Throttle.initThrottle Nat), options⟩
  else
    originalAddEventListener type l options

def Registered.isWrapped : Registered → Bool
  | .asIs _ => false
  | .wrapped _ _ => true

/-- `removeEventListener` matches a stored registration entry by reference
equality of the listener argument; the page only ever holds its own
callback reference, never the wrapper. -/
def matchesRemoval (r : Registered) (l : Listener) : Bool :=
  r == .asIs l

end Intercept

/-! ## Memory pressure monitor (`memoryManagement` IIFE)

`aggressiveCleanup` samples `performance.memory` when available (absence
modelled as `heap = none`), logs a warning when `used / total > 0.8`
(rendered over naturals as `5 * used > 4 * total`), then unconditionally
clears the `src` of every `img[src*="blob:"]` with `offsetParent === null`,
and records `lastCleanup = Date.now()`.  The `visibilitychange` handler
calls it only when the document is hidden and
`Date.now() - lastCleanup > 60000`; the 120 s interval calls it
unconditionally. -/

namespace MemMon

/-- Substring test used for the `img[src*="blob:"]` selector. -/
def hasInfix (pat : List Char) : List Char → Bool
  | [] => pat.isEmpty
  | c :: rest => pat.isPrefixOf (c :: rest) || hasInfix pat rest

def isBlobSrc (s : String) : Bool := hasInfix "blob:".toList s.toList

structure ImgEl where
  src : String
  hasOffsetParent : Bool
  deriving Repr, DecidableEq

structure MemState where
  lastCleanup : Nat
  deriving Repr, DecidableEq

/-- `aggressiveCleanup` at clock `now`: result is
`(images after the pass, new state, whether the high-memory warning was logged)`. -/
def aggressiveCleanup (now : Nat) (heap : Option (Nat × Nat)) (imgs : List ImgEl)
    (_s : MemState) : List ImgEl × MemState × Bool :=
  let logged :=
    match heap with
    | some (used, total) => decide (5 * used > 4 * total)
    | none => false
  let imgs2 := imgs.map (fun im =>
    if isBlobSrc im.src && !im.hasOffsetParent then { im with src := "" } else im)
  (imgs2, ⟨now⟩, logged)

/-- The `visibilitychange` handler: runs `aggressiveCleanup` only when the
document became hidden and the 60 s cooldown has elapsed. -/
def onVisibilityChange (hidden : Bool) (now : Nat) (heap : Option (Nat × Nat))
    (imgs : List ImgEl) (s : MemState) : List ImgEl × MemState × Bool :=
  if hidden && decide (s.lastCleanup + 60000 < now) then
    aggressiveCleanup now heap imgs s
  else
    (imgs, s, false)

/-- The 120 s `setInterval` trigger: unconditional. -/
def onInterval (now : Nat) (heap : Option (Nat × Nat)) (imgs : List ImgEl)
    (s : MemState) : List ImgEl × MemState × Bool :=
  aggressiveCleanup now heap imgs s

end MemMon

/-! ## Lazy code-block renderer (`lazyCodeBlocks` IIFE)

Each `pre` element carries the `data-turbo-observed` marker attribute, its
IntersectionObserver registration status, its `contentVisibility` style and
a count of executions of the rendering-enable action.  Events:
`rescan` (the `observeCodeBlocks` pass, run at install and after each
mutation batch), an intersection record delivered for an observed element,
and insertion of a new pristine `pre` by the host page. -/

namespace Lazy

structure PreEl where
  marked : Bool
  observed : Bool
  renders : Nat
  contentVis : String
  deriving Repr, DecidableEq

def pristinePre : PreEl := ⟨false, false, 0, ""⟩

inductive LEvent where
  | rescan
  | cross (i : Nat) (inter : Bool)
  | addPre

def lmodify (f : PreEl → PreEl) : Nat → List PreEl → List PreEl
  | _, [] => []
  | 0, p :: rest => f p :: rest
  | n + 1, p :: rest => p :: lmodify f n rest

/-- The IntersectionObserver callback body for one intersecting record:
`pre.style.contentVisibility = 'visible'; observer.unobserve(pre)`. -/
def renderPre (p : PreEl) : PreEl :=
  { p with renders := p.renders + 1, observed := false, contentVis := "visible" }

/-- `observeCodeBlocks` on one element: `pre:not([data-turbo-observed])`
gets the marker, the `contentVisibility: auto` style, and is observed. -/
def observePre (p : PreEl) : PreEl :=
  if p.marked then p else { p with marked := true, observed := true, contentVis := "auto" }

def lstep (ps : List PreEl) : LEvent → List PreEl
  | .rescan => ps.map observePre
  | .cross i inter => if inter then lmodify renderPre i ps else ps
  | .addPre => ps ++ [pristinePre]

def lrun (ps : List PreEl) : List LEvent → List PreEl
  | [] => ps
  | e :: rest => lrun (lstep ps e) rest

/-- Validity of one event against the current state: the observer delivers
a crossing record only for an element it currently observes (`unobserve`
stops observation). -/
def lokEvent (ps : List PreEl) : LEvent → Bool
  | .cross i _ => (ps.get? i).any (fun p => p.observed)
  | _ => true

/-- Trace validity. -/
def lvalid (ps : List PreEl) : List LEvent → Bool
  | [] => true
  | e :: rest => lokEvent ps e && lvalid (lstep ps e) rest

/-- Per-element invariant: an unmarked element is unobserved and
unrendered, the rendering-enable action has run at most once, and an
element still under observation has not yet been rendered. -/
def okPre (p : PreEl) : Prop :=
  (p.marked = false → p.observed = false ∧ p.renders = 0) ∧
    p.renders ≤ 1 ∧ (p.observed = true → p.renders = 0)

end Lazy

/-! ## DOM janitor (`domCleanup` IIFE)

The document is a forest of rose trees.  Each element carries exactly the
facts the janitor's three selector passes read: whether it is a tooltip or
Radix popper wrapper, whether it is `display: none` (the model of
`offsetParent === null`, which holds when the element or an ancestor
generates no box), whether it carries `data-state="open"`, whether it is
an empty `style` tag, and whether it carries `data-headlessui-state=""`.
`el.remove()` detaches the whole subtree; `closest` and `offsetParent`
look through the ancestor chain, threaded as the context `JCtx`. -/

namespace Janitor

structure JElem where
  tooltipLike : Bool
  displayNone : Bool
  openState : Bool
  emptyStyle : Bool
  headlessuiEmpty : Bool
  deriving Repr, DecidableEq

structure JCtx where
  ancHidden : Bool
  ancOpen : Bool
  deriving Repr, DecidableEq

def rootCtx : JCtx := ⟨false, false⟩

def childCtx (ctx : JCtx) (i : JElem) : JCtx :=
  ⟨ctx.ancHidden || i.displayNone, ctx.ancOpen || i.openState⟩

/-- Pass 1 predicate: `[role="tooltip"], [data-radix-popper-content-wrapper]`
removed when `!el.offsetParent && !el.closest('[data-state="open"]')`. -/
def tooltipRemovable (ctx : JCtx) (i : JElem) : Bool :=
  i.tooltipLike && (ctx.ancHidden || i.displayNone) && !(ctx.ancOpen || i.openState)

/-- Pass 2 predicate: `style:empty`. -/
def styleRemovable (_ctx : JCtx) (i : JElem) : Bool := i.emptyStyle

/-- Pass 3 predicate: `[data-headlessui-state=""]`, removed unconditionally. -/
def headlessRemovable (_ctx : JCtx) (i : JElem) : Bool := i.headlessuiEmpty

inductive Dom where
  | node (info : JElem) (children : List Dom)

/-- One selector pass: remove (with their subtrees) all elements matching
`p` under their inherited context. -/
def sweepForest (p : JCtx → JElem → Bool) (ctx : JCtx) : List Dom → List Dom
  | [] => []
  | Dom.node i cs :: rest =>
    if p ctx i then sweepForest p ctx rest
    else Dom.node i (sweepForest p (childCtx ctx i) cs) :: sweepForest p ctx rest

/-- The `cleanup` sweep: tooltips/poppers, then empty styles, then
orphaned headlessui overlays. -/
def cleanup (f : List Dom) : List Dom :=
  sweepForest headlessRemovable rootCtx
    (sweepForest styleRemovable rootCtx
      (sweepForest tooltipRemovable rootCtx f))

/-- No element of the forest matches `p` under its inherited context. -/
def noMatch (p : JCtx → JElem → Bool) (ctx : JCtx) : List Dom → Bool
  | [] => true
  | Dom.node i cs :: rest =>
    !p ctx i && noMatch p (childCtx ctx i) cs && noMatch p ctx rest

def domCount : List Dom → Nat
  | [] => 0
  | Dom.node _ cs :: rest => 1 + domCount cs + domCount rest

end Janitor

/-! ## Viewport virtualizer (`virtualizeMessages` IIFE)

A message container `[data-testid^="conversation-turn-"]` carries its
natural rendered height, the inline styles the virtualizer mutates
(`none` models the empty string, i.e. the property unset), its immediate
children's inline `display`, its `collapsedData` WeakMap entry, and the
element facts the janitor reads (`jinfo`).  Geometry is supplied to each
sweep as the `getBoundingClientRect` results, one `Rect` per index. -/

namespace Virt

structure VData where
  height : Nat
  hidden : Bool
  deriving Repr, DecidableEq

structure ChildEl where
  display : Option String
  deriving Repr, DecidableEq

structure Rect where
  top : Int
  bottom : Int
  height : Nat
  deriving Repr, DecidableEq

structure MsgEl where
  natHeight : Nat
  heightStyle : Option Nat
  overflowStyle : Option String
  visibilityStyle : Option String
  children : List ChildEl
  vdata : Option VData
  jinfo : Janitor.JElem
  deriving Repr, DecidableEq

def VIEWPORT_MARGIN : Int := 1500

/-- The rendered height of the placeholder box: the inline pixel height if
pinned, the natural height otherwise. -/
def renderedHeight (m : MsgEl) : Nat :=
  m.heightStyle.getD m.natHeight

def isCollapsed (m : MsgEl) : Bool :=
  match m.vdata with
  | some d => d.hidden
  | none => false

/-- The collapse branch: when `!collapsedData.has(msg) ||
!collapsedData.get(msg).hidden`, cache `rect.height`, record
`{height, hidden: true}`, pin `height`, clip `overflow`, hide
`visibility`, and suppress every immediate child's `display`. -/
def collapseMsg (r : Rect) (m : MsgEl) : MsgEl :=
  if (m.vdata.map (fun d => d.hidden)).getD false then m
  else
    { m with
      vdata := some ⟨r.height, true⟩
      heightStyle := some r.height
      overflowStyle := some "hidden"
      visibilityStyle := some "hidden"
      children := m.children.map (fun c => { c with display := some "none" }) }

/-- The in-view restore branch: when `data && data.hidden`, clear the
container's `height`, `overflow`, `visibility`, clear every immediate
child's `display`, and set `data.hidden = false`. -/
def restoreMsg (m : MsgEl) : MsgEl :=
  match m.vdata with
  | some d =>
    if d.hidden then
      { m with
        vdata := some ⟨d.height, false⟩
        heightStyle := none
        overflowStyle := none
        visibilityStyle := none
        children := m.children.map (fun c => { c with display := none }) }
    else m
  | none => m

/-- The exempt branch for the last three messages: when a `collapsedData`
entry exists, clear the container styles, and additionally (when
`data.hidden`) clear the children's `display` and reset the flag. -/
def exemptRestore (m : MsgEl) : MsgEl :=
  match m.vdata with
  | some d =>
    if d.hidden then
      { m with
        vdata := some ⟨d.height, false⟩
        heightStyle := none
        overflowStyle := none
        visibilityStyle := none
        children := m.children.map (fun c => { c with display := none }) }
    else
      { m with
        heightStyle := none
        overflowStyle := none
        visibilityStyle := none }
  | none => m

/-- Per-message body of the `messages.forEach((msg, i) => ...)` sweep.
`i >= messages.length - 3` is rendered over naturals as
`len <= i + 3` (the JS comparison also holds for every `i` when
`len < 3`). -/
def vstep (len : Nat) (scrollY innerH : Int) (rects : Nat → Rect) (i : Nat)
    (m : MsgEl) : MsgEl :=
  if len ≤ i + 3 then exemptRestore m
  else
    let r := rects i
    let absTop := r.top + scrollY
    let absBottom := r.bottom + scrollY
    if absBottom < scrollY - VIEWPORT_MARGIN ||
       absTop > scrollY + innerH + VIEWPORT_MARGIN then
      collapseMsg r m
    else restoreMsg m

def vmap (len : Nat) (scrollY innerH : Int) (rects : Nat → Rect) :
    Nat → List MsgEl → List MsgEl
  | _, [] => []
  | i, m :: rest =>
    vstep len scrollY innerH rects i m :: vmap len scrollY innerH rects (i + 1) rest

/-- One `virtualizeCheck` sweep: no-op below the 10-message minimum,
otherwise the indexed per-message pass over the current geometry. -/
def virtualizeCheck (scrollY innerH : Int) (rects : Nat → Rect)
    (msgs : List MsgEl) : List MsgEl :=
  if msgs.length < 10 then msgs
  else vmap msgs.length scrollY innerH rects 0 msgs

/-- A message as the host page creates it: untouched inline styles and no
`collapsedData` entry. -/
def pristineMsg (m : MsgEl) : Prop :=
  m.heightStyle = none ∧ m.overflowStyle = none ∧ m.visibilityStyle = none ∧
    m.vdata = none ∧ ∀ c ∈ m.children, c.display = none

/-- A sample host-created message, used in concrete instantiations. -/
def sampleMsg : MsgEl :=
  ⟨100, none, none, none, [⟨none⟩], none, ⟨false, false, false, false, false⟩⟩

/-- A consistent `getBoundingClientRect` result for `sampleMsg`. -/
def sampleRect : Rect := ⟨0, 100, 100⟩

/-- A message container that also carries `data-headlessui-state=""` — an
attribute the janitor's third selector matches unconditionally. -/
def headlessMsg : MsgEl :=
  ⟨50, none, none, none, [], none, ⟨false, false, false, false, true⟩⟩

/-- Geometry far above the extended viewport window. -/
def farRect : Rect := ⟨-20000, -19950, 50⟩

/-- States of the message list reachable in the closed system: host-created
content, sweeps at arbitrary scroll positions and geometry, and streaming
appends of new messages. -/
inductive Reachable : List MsgEl → Prop where
  | init (ms : List MsgEl) (h : ∀ m ∈ ms, pristineMsg m) : Reachable ms
  | sweep (ms : List MsgEl) (scrollY innerH : Int) (rects : Nat → Rect)
      (h : Reachable ms) : Reachable (virtualizeCheck scrollY innerH rects ms)
  | append (ms : List MsgEl) (m : MsgEl) (hm : pristineMsg m)
      (h : Reachable ms) : Reachable (ms ++ [m])

end Virt

/-! ## Theorems -/

namespace Intercept

/-- C8 counterexample: the claim says every registration for a designated
event type is wrapped with the throttle, but a registration for `"input"`
whose listener is a `handleEvent`-style object is forwarded unwrapped,
identically to an unpatched registration. -/
theorem designated_object_listener_unwrapped :
    addEventListenerPatched "input" (.obj 0) 0 =
      originalAddEventListener "input" (.obj 0) 0
    ∧ (addEventListenerPatched "input" (.obj 0) 0).listener.isWrapped = false
    ∧ Throttle.THROTTLE_EVENTS.contains "input" = true := by
  decide

/-- C8 (amended): a registration for a designated event type whose listener
is a function is wrapped with a fresh `throttled` wrapper; every other
registration (non-designated type, or non-function listener) produces
exactly the registration the unpatched entry point would: same type, same
listener reference, same options, hence identical invocation and removal
behaviour. -/
theorem patched_registration_amended (type : String) (l : Listener) (opts : Nat) :
    ((Throttle.THROTTLE_EVENTS.contains type && l.isFn) = true →
      addEventListenerPatched type l opts =
        ⟨type, .wrapped l (Throttle.initThrottle Nat), opts⟩)
    ∧ ((Throttle.THROTTLE_EVENTS.contains type && l.isFn) = false →
      addEventListenerPatched type l opts = originalAddEventListener type l opts) := by
  constructor
  · intro h
    unfold addEventListenerPatched
    rw [if_pos h]
  · intro h
    unfold addEventListenerPatched
    rw [if_neg (by rw [h]; exact Bool.false_ne_true)]

theorem patched_registration_amended_witness :
    addEventListenerPatched "input" (.fn 1) 0 =
      ⟨"input", .wrapped (.fn 1) (Throttle.initThrottle Nat), 0⟩
    ∧ addEventListenerPatched "wheel" (.fn 1) 0 =
      originalAddEventListener "wheel" (.fn 1) 0 :=
  ⟨(patched_registration_amended "input" (.fn 1) 0).1 (by decide),
   (patched_registration_amended "wheel" (.fn 1) 0).2 (by decide)⟩

/-- C10: for a designated type, a function listener is registered as a
freshly created wrapper — a reference distinct from the caller's callback,
carrying its own zero-initialised throttle state — so a removal request
presenting the original callback does not match the stored registration;
an object listener is registered unwrapped even for designated types. -/
theorem wrapper_registration_properties (type : String) (id oid : Nat)
    (st : Throttle.TState Nat) (opts : Nat) :
    ((addEventListenerPatched type (.fn id) opts).listener.isWrapped =
      Throttle.THROTTLE_EVENTS.contains type)
    ∧ matchesRemoval (.wrapped (.fn id) st) (.fn id) = false
    ∧ ((Registered.wrapped (.fn id) st == Registered.asIs (.fn id)) = false)
    ∧ addEventListenerPatched type (.obj oid) opts =
        originalAddEventListener type (.obj oid) opts
    ∧ (Throttle.THROTTLE_EVENTS.contains type = true →
        addEventListenerPatched type (.fn id) opts =
          ⟨type, .wrapped (.fn id) (Throttle.initThrottle Nat), opts⟩) := by
  refine ⟨?_, ?_, ?_, ?_, ?_⟩
  · by_cases h : Throttle.THROTTLE_EVENTS.contains type = true
    · unfold addEventListenerPatched
      rw [if_pos (by rw [h]; rfl), h]
      rfl
    · simp only [Bool.not_eq_true] at h
      unfold addEventListenerPatched
      rw [if_neg (by intro hc; rw [h] at hc; simp at hc), h]
      rfl
  · rw [matchesRemoval, beq_eq_false_iff_ne]
    intro h
    exact absurd h (by simp)
  · rw [beq_eq_false_iff_ne]
    intro h
    exact absurd h (by simp)
  · unfold addEventListenerPatched
    rw [if_neg (by intro hc; simp [Listener.isFn] at hc)]
  · intro h
    unfold addEventListenerPatched
    rw [if_pos (by rw [h]; rfl)]

theorem wrapper_registration_properties_witness :
    addEventListenerPatched "paste" (.fn 7) 2 =
      ⟨"paste", .wrapped (.fn 7) (Throttle.initThrottle Nat), 2⟩ :=
  (wrapper_registration_properties "paste" 7 0 (Throttle.initThrottle Nat) 2).2.2.2.2
    (by decide)

end Intercept

namespace MemMon

/-- C3 counterexample: with sampled heap `(used, total) = (1, 2)` — a ratio
of `0.5`, not above the `0.8` threshold — an interval trigger still
performs the mitigation pass: the detached blob image loses its `src`
(and the warning is not even logged).  This refutes "mitigation if and
only if the ratio exceeds the threshold". -/
theorem mitigation_below_threshold :
    (onInterval 200000 (some (1, 2)) [⟨"blob:abc", false⟩] ⟨0⟩).1 = [⟨"", false⟩]
    ∧ (onInterval 200000 (some (1, 2)) [⟨"blob:abc", false⟩] ⟨0⟩).2.2 = false
    ∧ decide (5 * 1 > 4 * 2) = false
    ∧ (([(⟨"", false⟩ : ImgEl)] == [(⟨"blob:abc", false⟩ : ImgEl)]) = false) := by
  decide

/-- C3 (amended): a trigger of the memory monitor performs the blob-image
mitigation pass unconditionally and records the cleanup time; the
`used / total > 0.8` comparison gates only the diagnostic warning; and a
hidden-state trigger performs nothing at all — no mitigation, no log, no
state change — while the 60 s cooldown has not elapsed, and runs the full
cleanup once it has. -/
theorem memMonitor_amended (now : Nat) (heap : Option (Nat × Nat))
    (imgs : List ImgEl) (s : MemState) :
    ((aggressiveCleanup now heap imgs s).1 = imgs.map (fun im =>
      if isBlobSrc im.src && !im.hasOffsetParent then { im with src := "" } else im))
    ∧ (aggressiveCleanup now heap imgs s).2.1 = ⟨now⟩
    ∧ ((aggressiveCleanup now heap imgs s).2.2 = true ↔
        ∃ used total, heap = some (used, total) ∧ 5 * used > 4 * total)
    ∧ (∀ hidden, now ≤ s.lastCleanup + 60000 →
        onVisibilityChange hidden now heap imgs s = (imgs, s, false))
    ∧ (∀ hidden, hidden = true → s.lastCleanup + 60000 < now →
        onVisibilityChange hidden now heap imgs s = aggressiveCleanup now heap imgs s) := by
  refine ⟨rfl, rfl, ?_, ?_, ?_⟩
  · match heap with
    | none => simp [aggressiveCleanup]
    | some (u, t) =>
      simp only [aggressiveCleanup, decide_eq_true_eq]
      constructor
      · intro h
        exact ⟨u, t, rfl, h⟩
      · rintro ⟨u2, t2, heq, hgt⟩
        cases heq
        exact hgt
  · intro hidden hle
    have : decide (s.lastCleanup + 60000 < now) = false := by
      simp only [decide_eq_false_iff_not, not_lt]
      exact hle
    simp [onVisibilityChange, this]
  · intro hidden hh hlt
    subst hh
    simp [onVisibilityChange, hlt]

theorem memMonitor_amended_witness :
    onVisibilityChange true 1000 none [] ⟨0⟩ = ([], (⟨0⟩ : MemState), false)
    ∧ onVisibilityChange true 70000 none [] ⟨0⟩ = aggressiveCleanup 70000 none [] ⟨0⟩ :=
  ⟨(memMonitor_amended 1000 none [] ⟨0⟩).2.2.2.1 true (by decide),
   (memMonitor_amended 70000 none [] ⟨0⟩).2.2.2.2 true rfl (by decide)⟩

/-- C4 counterexample: with the heap-introspection capability absent
(`performance.memory` unavailable, modelled as `heap = none`), a trigger of
the memory monitor is not a no-op: it still mutates the DOM, clearing the
`src` of a detached blob-backed image. -/
theorem no_heap_still_mutates :
    (onInterval 5 none [⟨"blob:x", false⟩] ⟨0⟩).1 = [⟨"", false⟩]
    ∧ (([(⟨"", false⟩ : ImgEl)] == [(⟨"blob:x", false⟩ : ImgEl)]) = false) := by
  decide

/-- C4 (amended): when `performance.memory` is absent the monitor skips
heap sampling and raises no error — the guard short-circuits and the
warning is never logged — but a trigger still performs the blob-image
mitigation pass and records the cleanup time. -/
theorem no_heap_degrades (now : Nat) (imgs : List ImgEl) (s : MemState) :
    aggressiveCleanup now none imgs s =
      (imgs.map (fun im =>
        if isBlobSrc im.src && !im.hasOffsetParent then { im with src := "" } else im),
       ⟨now⟩, false) := rfl

end MemMon

namespace Lazy

theorem lmodify_mem {f : PreEl → PreEl} :
    ∀ (i : Nat) (ps : List PreEl) (p : PreEl), p ∈ lmodify f i ps →
      p ∈ ps ∨ ∃ q, ps.get? i = some q ∧ p = f q := by
  intro i
  induction i with
  | zero =>
    intro ps p hp
    match ps with
    | [] => exact absurd hp (List.not_mem_nil p)
    | q :: rest =>
      rcases List.mem_cons.mp hp with h | h
      · exact Or.inr ⟨q, rfl, h⟩
      · exact Or.inl (List.mem_cons_of_mem q h)
  | succ n IH =>
    intro ps p hp
    match ps with
    | [] => exact absurd hp (List.not_mem_nil p)
    | q :: rest =>
      rcases List.mem_cons.mp hp with h | h
      · exact Or.inl (h ▸ List.mem_cons_self q rest)
      · rcases IH rest p h with h2 | ⟨q2, hq2, hfq2⟩
        · exact Or.inl (List.mem_cons_of_mem q h2)
        · exact Or.inr ⟨q2, hq2, hfq2⟩

theorem okPre_observePre (q : PreEl) (hq : okPre q) : okPre (observePre q) := by
  obtain ⟨h1, h2, h3⟩ := hq
  unfold observePre
  by_cases hm : q.marked = true
  · rw [if_pos hm]
    exact ⟨h1, h2, h3⟩
  · simp only [Bool.not_eq_true] at hm
    rw [if_neg (by rw [hm]; exact Bool.false_ne_true)]
    refine ⟨fun h => absurd h (by simp), ?_, fun _ => (h1 hm).2⟩
    simpa using h2

theorem okPre_step (ps : List PreEl) (e : LEvent) (hok : ∀ p ∈ ps, okPre p)
    (hv : lokEvent ps e = true) :
    ∀ p ∈ lstep ps e, okPre p := by
  match e with
  | .rescan =>
    intro p hp
    rcases List.mem_map.mp hp with ⟨q, hq, rfl⟩
    exact okPre_observePre q (hok q hq)
  | .addPre =>
    intro p hp
    rcases List.mem_append.mp hp with h | h
    · exact hok p h
    · rcases List.mem_singleton.mp h with rfl
      exact ⟨fun _ => ⟨rfl, rfl⟩, by simp [pristinePre], fun h => by simp [pristinePre]⟩
  | .cross i inter =>
    simp only [lstep]
    by_cases hi : inter = true
    · rw [if_pos hi]
      intro p hp
      rcases lmodify_mem i ps p hp with h | ⟨q, hget, rfl⟩
      · exact hok p h
      · have hqmem : q ∈ ps := List.get?_mem hget
        have hobs : q.observed = true := by
          rw [lokEvent, hget] at hv
          simpa using hv
        obtain ⟨h1, h2, h3⟩ := hok q hqmem
        have hr0 : q.renders = 0 := h3 hobs
        have hmk : q.marked = true := by
          by_contra hq
          simp only [Bool.not_eq_true] at hq
          exact absurd hobs (by rw [(h1 hq).1]; exact Bool.false_ne_true)
        refine ⟨fun h => ?_, ?_, fun h => ?_⟩
        · exact absurd h (by simp [renderPre, hmk])
        · simp [renderPre, hr0]
        · exact absurd h (by simp [renderPre])
    · simp only [Bool.not_eq_true] at hi
      rw [if_neg (by rw [hi]; exact Bool.false_ne_true)]
      exact hok

theorem okPre_run : ∀ (evs : List LEvent) (ps : List PreEl),
    (∀ p ∈ ps, okPre p) → lvalid ps evs = true → ∀ p ∈ lrun ps evs, okPre p := by
  intro evs
  induction evs with
  | nil => intro ps hok _ p hp; exact hok p hp
  | cons e rest IH =>
    intro ps hok hv
    rw [lvalid] at hv
    simp only [Bool.and_eq_true] at hv
    rcases hv with ⟨hv1, hv2⟩
    exact IH (lstep ps e) (okPre_step ps e hok hv1) hv2

/-- C9: for every initial population of unprocessed code blocks and every
valid trace of mutation-batch rescans, intersection-record deliveries (only
ever for still-observed elements) and host insertions, every element ends
with the rendering-enable action having executed at most once: the first
intersecting record renders and permanently unobserves it, and the
`data-turbo-observed` marker prevents any re-registration. -/
theorem render_at_most_once (ps : List PreEl) (evs : List LEvent)
    (h0 : ∀ p ∈ ps, p.marked = false ∧ p.observed = false ∧ p.renders = 0)
    (hv : lvalid ps evs = true) :
    ∀ p ∈ lrun ps evs, p.renders ≤ 1 := by
  have hok : ∀ p ∈ ps, okPre p := by
    intro p hp
    obtain ⟨h1, h2, h3⟩ := h0 p hp
    exact ⟨fun _ => ⟨h2, h3⟩, by omega, fun _ => h3⟩
  exact fun p hp => (okPre_run evs ps hok hv p hp).2.1

theorem render_at_most_once_witness :
    (⟨true, false, 1, "visible"⟩ : PreEl).renders ≤ 1 :=
  render_at_most_once [pristinePre] [LEvent.rescan, LEvent.cross 0 true, LEvent.rescan]
    (by decide) (by decide) ⟨true, false, 1, "visible"⟩ (by decide)

end Lazy

namespace Janitor

theorem noMatch_sweepForest (p : JCtx → JElem → Bool) :
    ∀ (ctx : JCtx) (f : List Dom), noMatch p ctx (sweepForest p ctx f) = true
  | _, [] => by simp [sweepForest, noMatch]
  | ctx, Dom.node i cs :: rest => by
    by_cases hp : p ctx i = true
    · rw [sweepForest, if_pos hp]
      exact noMatch_sweepForest p ctx rest
    · rw [sweepForest, if_neg hp, noMatch]
      simp only [Bool.not_eq_true] at hp
      simp [hp, noMatch_sweepForest p (childCtx ctx i) cs,
        noMatch_sweepForest p ctx rest]

theorem sweep_preserves_noMatch (p q : JCtx → JElem → Bool) :
    ∀ (ctx : JCtx) (f : List Dom), noMatch p ctx f = true →
      noMatch p ctx (sweepForest q ctx f) = true
  | _, [], _ => by simp [sweepForest, noMatch]
  | ctx, Dom.node i cs :: rest, h => by
    rw [noMatch] at h
    simp only [Bool.and_eq_true] at h
    rcases h with ⟨⟨h1, h2⟩, h3⟩
    by_cases hq : q ctx i = true
    · rw [sweepForest, if_pos hq]
      exact sweep_preserves_noMatch p q ctx rest h3
    · rw [sweepForest, if_neg hq, noMatch]
      simp [h1, sweep_preserves_noMatch p q (childCtx ctx i) cs h2,
        sweep_preserves_noMatch p q ctx rest h3]

theorem sweep_noop (p : JCtx → JElem → Bool) :
    ∀ (ctx : JCtx) (f : List Dom), noMatch p ctx f = true →
      sweepForest p ctx f = f
  | _, [], _ => by simp [sweepForest]
  | ctx, Dom.node i cs :: rest, h => by
    rw [noMatch] at h
    simp only [Bool.and_eq_true] at h
    rcases h with ⟨⟨h1, h2⟩, h3⟩
    have hp : ¬ p ctx i = true := by
      simp only [Bool.not_eq_eq_eq_not, Bool.not_true] at h1
      rw [h1]
      exact Bool.false_ne_true
    rw [sweepForest, if_neg hp, sweep_noop p (childCtx ctx i) cs h2,
      sweep_noop p ctx rest h3]

/-- C7: the janitor sweep is idempotent — on every document forest, running
`cleanup` a second time with no intervening DOM change removes zero
elements: the result is unchanged and the node count does not drop. -/
theorem cleanup_idempotent (f : List Dom) :
    cleanup (cleanup f) = cleanup f
    ∧ domCount (cleanup (cleanup f)) = domCount (cleanup f) := by
  have hT : noMatch tooltipRemovable rootCtx (cleanup f) = true :=
    sweep_preserves_noMatch tooltipRemovable headlessRemovable rootCtx _
      (sweep_preserves_noMatch tooltipRemovable styleRemovable rootCtx _
        (noMatch_sweepForest tooltipRemovable rootCtx f))
  have hS : noMatch styleRemovable rootCtx (cleanup f) = true :=
    sweep_preserves_noMatch styleRemovable headlessRemovable rootCtx _
      (noMatch_sweepForest styleRemovable rootCtx _)
  have hH : noMatch headlessRemovable rootCtx (cleanup f) = true :=
    noMatch_sweepForest headlessRemovable rootCtx _
  have heq : cleanup (cleanup f) = cleanup f := by
    calc cleanup (cleanup f)
        = sweepForest headlessRemovable rootCtx
            (sweepForest styleRemovable rootCtx
              (sweepForest tooltipRemovable rootCtx (cleanup f))) := rfl
      _ = cleanup f := by
          rw [sweep_noop tooltipRemovable rootCtx _ hT,
            sweep_noop styleRemovable rootCtx _ hS,
            sweep_noop headlessRemovable rootCtx _ hH]
  exact ⟨heq, by rw [heq]⟩

end Janitor


namespace Virt

theorem get_opt_append_left {α : Type} :
    ∀ (l1 l2 : List α) (i : Nat), i < l1.length → (l1 ++ l2).get? i = l1.get? i := by
  intro l1
  induction l1 with
  | nil => intro l2 i h; exact absurd h (by simp)
  | cons a t IH =>
    intro l2 i h
    match i with
    | 0 => rfl
    | Nat.succ j => exact IH l2 j (by simpa using h)

theorem get_opt_append_last {α : Type} :
    ∀ (l : List α) (a : α), (l ++ [a]).get? l.length = some a := by
  intro l
  induction l with
  | nil => intro a; rfl
  | cons b t IH => intro a; exact IH a

theorem get_opt_vmap (len : Nat) (sy ih : Int) (rects : Nat → Rect) :
    ∀ (ms : List MsgEl) (i j : Nat),
      (vmap len sy ih rects i ms).get? j =
        (ms.get? j).map (fun m => vstep len sy ih rects (i + j) m) := by
  intro ms
  induction ms with
  | nil => intro i j; rfl
  | cons m rest IH =>
    intro i j
    match j with
    | 0 => rfl
    | Nat.succ jj =>
      have h5 : (vmap len sy ih rects i (m :: rest)).get? (jj + 1) =
          (vmap len sy ih rects (i + 1) rest).get? jj := rfl
      rw [h5, IH (i + 1) jj]
      have h6 : i + 1 + jj = i + (jj + 1) := by omega
      rw [h6]
      rfl

theorem len_vmap (len : Nat) (sy ih : Int) (rects : Nat → Rect) :
    ∀ (i : Nat) (ms : List MsgEl), (vmap len sy ih rects i ms).length = ms.length := by
  intro i ms
  induction ms generalizing i with
  | nil => rfl
  | cons m rest IH => simp [vmap, IH]

theorem exemptRestore_not_collapsed (m : MsgEl) :
    isCollapsed (exemptRestore m) = false := by
  rcases hm : m.vdata with _ | d
  · simp [exemptRestore, isCollapsed, hm]
  · by_cases hd : d.hidden = true
    · simp [exemptRestore, isCollapsed, hm, hd]
    · simp only [Bool.not_eq_true] at hd
      simp [exemptRestore, isCollapsed, hm, hd]

/-- C6: in every reachable state of the virtualizer — host-created content,
any number of sweeps at arbitrary scroll positions and geometry, and
streamed-in new messages — none of the last three messages in document
order is ever Collapsed: the sweep's exempt branch leaves them Expanded and
restores any message that became exempt. -/
theorem last_three_never_collapsed (ms : List MsgEl) (hreach : Reachable ms) :
    ∀ (i : Nat) (x : MsgEl), ms.get? i = some x → ms.length ≤ i + 3 →
      isCollapsed x = false := by
  induction hreach with
  | init ms0 h =>
    intro i x hget _
    have hx : x ∈ ms0 := List.get?_mem hget
    have h4 := (h x hx).2.2.2.1
    unfold isCollapsed
    rw [h4]
  | sweep ms0 sy ihh rects hr IH =>
    intro i x hget hge
    unfold virtualizeCheck at hget hge
    by_cases hlen : ms0.length < 10
    · rw [if_pos hlen] at hget hge
      exact IH i x hget hge
    · rw [if_neg hlen] at hget hge
      rw [len_vmap] at hge
      rw [get_opt_vmap] at hget
      rcases hy : ms0.get? i with _ | y
      · rw [hy] at hget
        simp at hget
      · rw [hy] at hget
        have hx : vstep ms0.length sy ihh rects (0 + i) y = x :=
          Option.some.inj hget
        rw [← hx]
        unfold vstep
        rw [if_pos (by omega : ms0.length ≤ (0 + i) + 3)]
        exact exemptRestore_not_collapsed _
  | append ms0 m hm hr IH =>
    intro i x hget hge
    simp only [List.length_append, List.length_singleton] at hge
    rcases Nat.lt_or_ge i ms0.length with hlt | hge3
    · rw [get_opt_append_left ms0 [m] i hlt] at hget
      exact IH i x hget (by omega)
    · have hin : i < ms0.length + 1 := by
        have := List.get?_eq_some.mp hget
        simpa using this.1
      have hieq : i = ms0.length := by omega
      subst hieq
      rw [get_opt_append_last ms0 m] at hget
      obtain rfl := Option.some.inj hget
      have h4 := hm.2.2.2.1
      unfold isCollapsed
      rw [h4]

theorem last_three_never_collapsed_witness :
    isCollapsed sampleMsg = false :=
  last_three_never_collapsed [sampleMsg]
    (Reachable.init [sampleMsg] (by
      intro m hm
      rcases List.mem_singleton.mp hm with rfl
      refine ⟨rfl, rfl, rfl, rfl, ?_⟩
      intro c hc
      rcases List.mem_singleton.mp hc with rfl
      rfl))
    0 sampleMsg rfl (by decide)

/-- C5: on a message the host page created (no inline `height`, `overflow`,
`visibility`, all immediate children with unset `display`), with geometry
consistent with its rendered height, the Collapsed→Expanded transition
exactly reverses every style mutation of the prior Expanded→Collapsed
transition — container height, overflow, visibility and every child's
display return to their pre-collapse values — and the rendered height after
restore equals the height cached strictly before the collapse. -/
theorem collapse_expand_roundtrip (m : MsgEl) (r : Rect)
    (hpr : pristineMsg m) (hr : r.height = renderedHeight m) :
    (collapseMsg r m).vdata = some ⟨renderedHeight m, true⟩
    ∧ isCollapsed (collapseMsg r m) = true
    ∧ restoreMsg (collapseMsg r m) = { m with vdata := some ⟨renderedHeight m, false⟩ }
    ∧ renderedHeight (restoreMsg (collapseMsg r m)) = renderedHeight m := by
  obtain ⟨nh, hs, os, vs, ch, vd, ji⟩ := m
  obtain ⟨rt, rb, rh⟩ := r
  obtain ⟨h1, h2, h3, h4, h5⟩ := hpr
  dsimp only at h1 h2 h3 h4 h5
  subst h1 h2 h3 h4
  have hrh : rh = nh := hr
  subst hrh
  have hcol : collapseMsg ⟨rt, rb, rh⟩ ⟨rh, none, none, none, ch, none, ji⟩ =
      ⟨rh, some rh, some "hidden", some "hidden",
        ch.map (fun c => { c with display := some "none" }), some ⟨rh, true⟩, ji⟩ := rfl
  have hch : (ch.map (fun c => ({ c with display := some "none" } : ChildEl))).map
      (fun c => { c with display := none }) = ch := by
    rw [List.map_map]
    have h6 : ∀ c ∈ ch,
        ((fun c => ({ c with display := none } : ChildEl)) ∘
          (fun c => ({ c with display := some "none" } : ChildEl))) c = id c := by
      intro c hc
      have hd := h5 c hc
      obtain ⟨d⟩ := c
      dsimp only at hd
      subst hd
      rfl
    rw [List.map_congr_left h6, List.map_id]
  have hres : restoreMsg (collapseMsg ⟨rt, rb, rh⟩ ⟨rh, none, none, none, ch, none, ji⟩) =
      ⟨rh, none, none, none,
        (ch.map (fun c => { c with display := some "none" })).map
          (fun c => { c with display := none }), some ⟨rh, false⟩, ji⟩ := by
    rw [hcol]
    rfl
  refine ⟨by rw [hcol]; rfl, by rw [hcol]; rfl, ?_, ?_⟩
  · rw [hres, hch]
    rfl
  · rw [hres]
    rfl

theorem collapse_expand_roundtrip_witness :
    restoreMsg (collapseMsg sampleRect sampleMsg) =
      { sampleMsg with vdata := some ⟨renderedHeight sampleMsg, false⟩ }
    ∧ renderedHeight (restoreMsg (collapseMsg sampleRect sampleMsg)) =
      renderedHeight sampleMsg :=
  ⟨(collapse_expand_roundtrip sampleMsg sampleRect
      ⟨rfl, rfl, rfl, rfl, by
        intro c hc
        rcases List.mem_singleton.mp hc with rfl
        rfl⟩ rfl).2.2.1,
   (collapse_expand_roundtrip sampleMsg sampleRect
      ⟨rfl, rfl, rfl, rfl, by
        intro c hc
        rcases List.mem_singleton.mp hc with rfl
        rfl⟩ rfl).2.2.2⟩

/-- C1 (code bug): the virtualizer marks a Collapsed node with nothing the
janitor reads — collapsing changes no fact the janitor's predicates inspect
(first conjunct) — and a message container carrying
`data-headlessui-state=""` is collapsed by a sweep (ten messages, the first
far above the extended viewport) yet removed by the janitor's third pass,
which matches that attribute unconditionally.  The inert/managed marker the
specification mandates does not exist in the code. -/
theorem collapsed_node_removed_by_janitor :
    (∀ (r : Rect) (m : MsgEl), (collapseMsg r m).jinfo = m.jinfo)
    ∧ (virtualizeCheck 10000 500 (fun _ => farRect)
        (List.replicate 10 headlessMsg)).head? = some (collapseMsg farRect headlessMsg)
    ∧ isCollapsed (collapseMsg farRect headlessMsg) = true
    ∧ Janitor.headlessRemovable Janitor.rootCtx (collapseMsg farRect headlessMsg).jinfo = true
    ∧ Janitor.cleanup [Janitor.Dom.node (collapseMsg farRect headlessMsg).jinfo []] = [] := by
  refine ⟨?_, ?_, rfl, rfl, ?_⟩
  · intro r m
    unfold collapseMsg
    split <;> rfl
  · decide
  · have hj : (collapseMsg farRect headlessMsg).jinfo =
        ⟨false, false, false, false, true⟩ := rfl
    rw [hj]
    simp [Janitor.cleanup, Janitor.sweepForest, Janitor.tooltipRemovable,
      Janitor.styleRemovable, Janitor.headlessRemovable, Janitor.rootCtx]

end Virt

namespace Throttle

theorem count_step (n lr t0 t : Nat) (hn : n ≤ (lr - t0) / THROTTLE_MS + 1)
    (hle : t0 ≤ lr) (ht : lr + THROTTLE_MS ≤ t) :
    n ≤ (t - t0) / THROTTLE_MS := by
  have hW : 0 < THROTTLE_MS := by decide
  have h1 : THROTTLE_MS ≤ t - t0 := by omega
  have h2 : (t - t0) / THROTTLE_MS = (t - t0 - THROTTLE_MS) / THROTTLE_MS + 1 :=
    Nat.div_eq_sub_div hW h1
  have h3 : lr - t0 ≤ t - t0 - THROTTLE_MS := by omega
  have h4 : (lr - t0) / THROTTLE_MS ≤ (t - t0 - THROTTLE_MS) / THROTTLE_MS :=
    Nat.div_le_div_right h3
  omega

theorem count_fire (n lr t0 cN : Nat) (hn : n ≤ (lr - t0) / THROTTLE_MS + 1)
    (hle : t0 ≤ lr) (hlt : lr + 1 ≤ cN) :
    n ≤ (cN - t0 + (THROTTLE_MS - 1)) / THROTTLE_MS := by
  have hW : 0 < THROTTLE_MS := by decide
  have h1 : THROTTLE_MS ≤ cN - t0 + (THROTTLE_MS - 1) := by omega
  have h2 : (cN - t0 + (THROTTLE_MS - 1)) / THROTTLE_MS
      = (cN - t0 + (THROTTLE_MS - 1) - THROTTLE_MS) / THROTTLE_MS + 1 :=
    Nat.div_eq_sub_div hW h1
  have h3 : lr - t0 ≤ cN - t0 + (THROTTLE_MS - 1) - THROTTLE_MS := by omega
  have h4 : (lr - t0) / THROTTLE_MS ≤
      (cN - t0 + (THROTTLE_MS - 1) - THROTTLE_MS) / THROTTLE_MS :=
    Nat.div_le_div_right h3
  omega

theorem throttleStep_call {A : Type} (s : TState A) (t : Nat) (a : A) :
    throttleStep s (.call t a) =
      if s.lastRun + THROTTLE_MS ≤ t then
        ((⟨t, none, some a⟩ : TState A), some (t, a))
      else
        match s.timeoutSched with
        | none => (⟨s.lastRun, some (s.lastRun + THROTTLE_MS), some a⟩, none)
        | some sch => (⟨s.lastRun, some sch, some a⟩, none) := rfl

theorem throttleStep_fire {A : Type} (s : TState A) (t : Nat) :
    throttleStep s (.fire t) =
      (⟨t, none, s.lastArgs⟩, s.lastArgs.map (fun a => (t, a))) := rfl

theorem getLast_cons_opt {α : Type} :
    ∀ (x : α) (l : List α), (x :: l).getLast? = some (l.getLastD x) := by
  intro x l
  induction l generalizing x with
  | nil => rfl
  | cons y t IH => rw [List.getLast?_cons_cons, IH y, List.getLastD_cons]

theorem inv_init {A : Type} (t0 : Nat) (a0 : A) (h0 : 0 < t0) :
    Inv t0 t0 (t0, a0) (throttleStep (initThrottle A) (.call t0 a0)).1
      ((throttleStep (initThrottle A) (.call t0 a0)).2.toList) := by
  have hstep : throttleStep (initThrottle A) (.call t0 a0) =
      if 0 + THROTTLE_MS ≤ t0 then ((⟨t0, none, some a0⟩ : TState A), some (t0, a0))
      else (⟨0, some (0 + THROTTLE_MS), some a0⟩, none) := rfl
  by_cases hc : 0 + THROTTLE_MS ≤ t0
  · rw [hstep, if_pos hc]
    refine ⟨h0, le_refl _, le_refl _, le_refl _, ?_, ?_, ?_, ?_, ?_⟩
    · intro h; exact absurd h (by simp)
    · intro _
      exact ⟨le_refl _, by simp [Nat.sub_self]⟩
    · intro sch hsch; exact absurd hsch (by simp)
    · simp [Nat.sub_self, THROTTLE_MS]
    · intro _; exact ⟨(t0, a0), by simp, rfl⟩
  · rw [hstep, if_neg hc]
    refine ⟨h0, le_refl _, le_refl _, Nat.zero_le _, fun _ => rfl, ?_, ?_, ?_, ?_⟩
    · intro h; exact absurd rfl h
    · intro sch hsch
      have hs := Option.some.inj hsch
      exact ⟨hs.symm, h0, rfl⟩
    · exact Nat.zero_le _
    · intro h; exact absurd h (by simp)

theorem inv_step {A : Type} {t0 tprev : Nat} {c : Nat × A} {s : TState A}
    {outs : List (Nat × A)} (e : ThrottleEv A)
    (hInv : Inv t0 tprev c s outs)
    (ht : tprev < e.time)
    (hfire : ∀ t, e = .fire t →
      s.timeoutSched.any (fun sch => decide (sch ≤ t)) = true) :
    Inv t0 e.time (lastCall c [e]) (throttleStep s e).1
      (outs ++ (throttleStep s e).2.toList) := by
  obtain ⟨h1, h2, h3, h4, h5, h6, h7, h8, h9⟩ := hInv
  match e with
  | .call t a =>
    simp only [ThrottleEv.time] at ht ⊢
    have hlc : lastCall c [ThrottleEv.call t a] = (t, a) := rfl
    rw [hlc]
    by_cases hc : s.lastRun + THROTTLE_MS ≤ t
    · have hstep : throttleStep s (.call t a) =
          ((⟨t, none, some a⟩ : TState A), some (t, a)) := by
        rw [throttleStep_call, if_pos hc]
      rw [hstep]
      show Inv t0 t (t, a) ⟨t, none, some a⟩ (outs ++ [(t, a)])
      refine ⟨h1, by show t0 ≤ t; omega, le_refl _, le_refl _, ?_, ?_, ?_, ?_, ?_⟩
      · intro h; exact absurd h (by simp)
      · intro _
        refine ⟨by show t0 ≤ t; omega, ?_⟩
        show (outs ++ [(t, a)]).length ≤ (t - t0) / THROTTLE_MS + 1
        rw [List.length_append, List.length_singleton]
        by_cases hnil : outs = []
        · subst hnil
          simp
        · obtain ⟨hta, hcnt⟩ := h6 hnil
          have := count_step outs.length s.lastRun t0 t hcnt hta hc
          omega
      · intro sch hsch; exact absurd hsch (by simp)
      · show (outs ++ [(t, a)]).length ≤
          (t - t0 + (THROTTLE_MS - 1)) / THROTTLE_MS + 1
        rw [List.length_append, List.length_singleton]
        by_cases hnil : outs = []
        · subst hnil
          simp
        · obtain ⟨hta, hcnt⟩ := h6 hnil
          have hst := count_step outs.length s.lastRun t0 t hcnt hta hc
          have hmono : (t - t0) / THROTTLE_MS ≤
              (t - t0 + (THROTTLE_MS - 1)) / THROTTLE_MS :=
            Nat.div_le_div_right (by omega)
          omega
      · intro _
        exact ⟨(t, a), by simp, rfl⟩
    · rcases hts : s.timeoutSched with _ | sch
      · have hstep : throttleStep s (.call t a) =
            ((⟨s.lastRun, some (s.lastRun + THROTTLE_MS), some a⟩ : TState A), none) := by
          rw [throttleStep_call, if_neg hc, hts]
        rw [hstep]
        show Inv t0 t (t, a)
          ⟨s.lastRun, some (s.lastRun + THROTTLE_MS), some a⟩ (outs ++ [])
        rw [List.append_nil]
        refine ⟨h1, by show t0 ≤ t; omega, le_refl _,
          by show s.lastRun ≤ t; omega, h5, h6, ?_, ?_, ?_⟩
        · intro sch2 hsch2
          have hs := Option.some.inj hsch2
          exact ⟨hs.symm, by show s.lastRun + 1 ≤ t; omega, rfl⟩
        · show outs.length ≤ (t - t0 + (THROTTLE_MS - 1)) / THROTTLE_MS + 1
          have hmono : (c.1 - t0 + (THROTTLE_MS - 1)) / THROTTLE_MS ≤
              (t - t0 + (THROTTLE_MS - 1)) / THROTTLE_MS :=
            Nat.div_le_div_right (by omega)
          omega
        · intro h; exact absurd h (by simp)
      · have hstep : throttleStep s (.call t a) =
            ((⟨s.lastRun, some sch, some a⟩ : TState A), none) := by
          rw [throttleStep_call, if_neg hc, hts]
        rw [hstep]
        show Inv t0 t (t, a) ⟨s.lastRun, some sch, some a⟩ (outs ++ [])
        rw [List.append_nil]
        obtain ⟨hs1, hs2, _⟩ := h7 sch hts
        refine ⟨h1, by show t0 ≤ t; omega, le_refl _,
          by show s.lastRun ≤ t; omega, h5, h6, ?_, ?_, ?_⟩
        · intro sch2 hsch2
          have hs := Option.some.inj hsch2
          exact ⟨hs ▸ hs1, by show s.lastRun + 1 ≤ t; omega, rfl⟩
        · show outs.length ≤ (t - t0 + (THROTTLE_MS - 1)) / THROTTLE_MS + 1
          have hmono : (c.1 - t0 + (THROTTLE_MS - 1)) / THROTTLE_MS ≤
              (t - t0 + (THROTTLE_MS - 1)) / THROTTLE_MS :=
            Nat.div_le_div_right (by omega)
          omega
        · intro h; exact absurd h (by simp)
  | .fire t =>
    simp only [ThrottleEv.time] at ht ⊢
    have hlc : lastCall c [ThrottleEv.fire t] = c := rfl
    rw [hlc]
    rcases hts : s.timeoutSched with _ | sch
    · exact absurd (hfire t rfl) (by simp [hts])
    · have hle : sch ≤ t := by
        have := hfire t rfl
        rw [hts] at this
        simpa using this
      obtain ⟨hs1, hs2, hs3⟩ := h7 sch hts
      have hstep : throttleStep s (.fire t) =
          ((⟨t, none, some c.2⟩ : TState A), some (t, c.2)) := by
        rw [throttleStep_fire, hs3]
        rfl
      rw [hstep]
      show Inv t0 t c ⟨t, none, some c.2⟩ (outs ++ [(t, c.2)])
      have hlrW : s.lastRun + THROTTLE_MS ≤ t := by omega
      refine ⟨h1, h2, by omega, le_refl _, ?_, ?_, ?_, ?_, ?_⟩
      · intro h; exact absurd h (by simp)
      · intro _
        refine ⟨by show t0 ≤ t; omega, ?_⟩
        show (outs ++ [(t, c.2)]).length ≤ (t - t0) / THROTTLE_MS + 1
        rw [List.length_append, List.length_singleton]
        by_cases hnil : outs = []
        · subst hnil
          simp
        · obtain ⟨hta, hcnt⟩ := h6 hnil
          have := count_step outs.length s.lastRun t0 t hcnt hta hlrW
          omega
      · intro sch2 hsch2; exact absurd hsch2 (by simp)
      · show (outs ++ [(t, c.2)]).length ≤
          (c.1 - t0 + (THROTTLE_MS - 1)) / THROTTLE_MS + 1
        rw [List.length_append, List.length_singleton]
        by_cases hnil : outs = []
        · subst hnil
          simp
        · obtain ⟨hta, hcnt⟩ := h6 hnil
          have := count_fire outs.length s.lastRun t0 c.1 hcnt hta hs2
          omega
      · intro _
        exact ⟨(t, c.2), by simp, rfl⟩

theorem inv_run {A : Type} :
    ∀ (evs : List (ThrottleEv A)) (t0 tprev : Nat) (c : Nat × A) (s : TState A)
      (outs : List (Nat × A)),
      Inv t0 tprev c s outs → validFrom tprev s evs = true →
      Inv t0 (endT tprev evs) (lastCall c evs) (throttleRun s evs).1
        (outs ++ (throttleRun s evs).2) := by
  intro evs
  induction evs with
  | nil =>
    intro t0 tprev c s outs hInv _
    simpa [endT, lastCall, callEvents, throttleRun] using hInv
  | cons e rest IH =>
    intro t0 tprev c s outs hInv hv
    cases e with
    | call t a =>
      simp only [validFrom, Bool.and_eq_true, decide_eq_true_eq] at hv
      obtain ⟨ht, hv2⟩ := hv
      have hI2 := inv_step (ThrottleEv.call t a) hInv
        (by simpa [ThrottleEv.time] using ht) (fun t2 h => by cases h)
      have hlc1 : lastCall c [ThrottleEv.call t a] = (t, a) := rfl
      rw [hlc1] at hI2
      have hrun1 : (throttleRun s (ThrottleEv.call t a :: rest)).1 =
          (throttleRun (throttleStep s (.call t a)).1 rest).1 := rfl
      have hrun2 : (throttleRun s (ThrottleEv.call t a :: rest)).2 =
          (throttleStep s (.call t a)).2.toList ++
            (throttleRun (throttleStep s (.call t a)).1 rest).2 := rfl
      have hend : endT tprev (ThrottleEv.call t a :: rest) = endT t rest := by
        unfold endT
        rw [List.map_cons]
        exact List.getLastD_cons _ _ _
      have hlc : lastCall c (ThrottleEv.call t a :: rest) = lastCall (t, a) rest := by
        unfold lastCall
        rw [callEvents]
        exact List.getLastD_cons _ _ _
      rw [hrun1, hrun2, ← List.append_assoc, hend, hlc]
      exact IH t0 t (t, a) _ _ hI2 hv2
    | fire t =>
      simp only [validFrom, Bool.and_eq_true, decide_eq_true_eq] at hv
      obtain ⟨⟨ht, hany⟩, hv2⟩ := hv
      have hI2 := inv_step (ThrottleEv.fire t) hInv
        (by simpa [ThrottleEv.time] using ht) (fun t2 h => by cases h; exact hany)
      have hlc1 : lastCall c [ThrottleEv.fire t] = c := rfl
      rw [hlc1] at hI2
      have hrun1 : (throttleRun s (ThrottleEv.fire t :: rest)).1 =
          (throttleRun (throttleStep s (.fire t)).1 rest).1 := rfl
      have hrun2 : (throttleRun s (ThrottleEv.fire t :: rest)).2 =
          (throttleStep s (.fire t)).2.toList ++
            (throttleRun (throttleStep s (.fire t)).1 rest).2 := rfl
      have hend : endT tprev (ThrottleEv.fire t :: rest) = endT t rest := by
        unfold endT
        rw [List.map_cons]
        exact List.getLastD_cons _ _ _
      have hlc : lastCall c (ThrottleEv.fire t :: rest) = lastCall c rest := by
        unfold lastCall
        rw [callEvents]
      rw [hrun1, hrun2, ← List.append_assoc, hend, hlc]
      exact IH t0 t c _ _ hI2 hv2

/-- C2: the throttled wrapper.  (i) Whenever at least `THROTTLE_MS` has
passed since the last actual invocation of the underlying callback
(`lastRun`), a wrapper invocation runs the callback immediately with the
current arguments and updates the last-invoked timestamp.  (ii) For every
event-loop-valid trace of wrapper invocations and timer firings on a fresh
registration, the callback executes at most
`⌈elapsed / THROTTLE_MS⌉ + 1` times, where `elapsed` is the span from the
first to the last wrapper invocation (for naturals,
`⌈e / W⌉ = (e + (W - 1)) / W`).  (iii) Once the trace settles (no timer
pending), the final execution received the arguments of the most recent
invocation — last-write-wins coalescing. -/
theorem throttle_spec (A : Type) :
    (∀ (s : TState A) (t : Nat) (a : A), s.lastRun + THROTTLE_MS ≤ t →
      throttleStep s (.call t a) = (⟨t, none, some a⟩, some (t, a)))
    ∧ (∀ (evs : List (ThrottleEv A)) (c0 cN : Nat × A),
        validFrom 0 (initThrottle A) evs = true →
        (callEvents evs).head? = some c0 →
        (callEvents evs).getLast? = some cN →
        (throttleExecs evs).length ≤
          (cN.1 - c0.1 + (THROTTLE_MS - 1)) / THROTTLE_MS + 1
        ∧ ((throttleRun (initThrottle A) evs).1.timeoutSched = none →
            ∃ p, (throttleExecs evs).getLast? = some p ∧ p.2 = cN.2)) := by
  constructor
  · intro s t a hc
    rw [throttleStep_call, if_pos hc]
  · intro evs c0 cN hvalid hhead hlast
    cases evs with
    | nil => exact absurd hhead (by simp [callEvents])
    | cons e rest =>
      cases e with
      | fire t =>
        exfalso
        simp only [validFrom, initThrottle, Bool.and_eq_true] at hvalid
        simp at hvalid
      | call tv av =>
        simp only [validFrom, Bool.and_eq_true, decide_eq_true_eq] at hvalid
        obtain ⟨ht0, hv2⟩ := hvalid
        have hI1 := inv_init (A := A) tv av ht0
        have hI := inv_run rest tv tv (tv, av) _ _ hI1 hv2
        have hc0 : c0 = (tv, av) := by
          rw [callEvents] at hhead
          exact (Option.some.inj hhead).symm
        have hcN : lastCall (tv, av) rest = cN := by
          rw [callEvents, getLast_cons_opt] at hlast
          exact Option.some.inj hlast
        have hexec : throttleExecs (ThrottleEv.call tv av :: rest) =
            (throttleStep (initThrottle A) (.call tv av)).2.toList ++
              (throttleRun (throttleStep (initThrottle A) (.call tv av)).1 rest).2 := rfl
        constructor
        · rw [hexec, hc0]
          have hcb := hI.count_bound
          rw [hcN] at hcb
          exact hcb
        · intro hnone
          obtain ⟨p, hp1, hp2⟩ := hI.lww hnone
          refine ⟨p, ?_, ?_⟩
          · rw [hexec]
            exact hp1
          · rw [← hcN]
            exact hp2

theorem throttle_spec_witness :
    (throttleExecs (A := Nat)
        [ThrottleEv.call 40 1, ThrottleEv.call 45 2, ThrottleEv.fire 72]).length ≤
      ((45 : Nat) - 40 + (THROTTLE_MS - 1)) / THROTTLE_MS + 1
    ∧ ∃ p, (throttleExecs (A := Nat)
        [ThrottleEv.call 40 1, ThrottleEv.call 45 2, ThrottleEv.fire 72]).getLast? =
          some p ∧ p.2 = 2 := by
  have h := (throttle_spec Nat).2
    [ThrottleEv.call 40 1, ThrottleEv.call 45 2, ThrottleEv.fire 72]
    (40, 1) (45, 2) (by decide) (by decide) (by decide)
  exact ⟨h.1, h.2 (by decide)⟩

end Throttle
